import Mathlib

/-!
Verification of the `look_up_table` interpolation crate.

Shallow embedding of the 1D and 2D lookup-table engines of the repository
(`src/src/oned_lut/{mod,interpolation}.rs`, `src/src/twod_lut/interpolation.rs`,
`src/src/twod_lut/mod.rs`, `src/src/error.rs`, and the older copy under
`src/aeb_decision_rust/look_up_table/src/oned_lut.rs`).

Modelling conventions:
* An `f64` is modelled by the type `FP`: either NaN, one of the two infinities,
  or a finite value represented by a rational number.  Finite arithmetic is
  modelled exactly (rational arithmetic); the numeric test tolerances of the
  specification (1e-4, 1e-5) absorb the rounding difference with real `f64`.
  The model has a single zero (no negative zero).
* Rust panics (an `unwrap` of `None` from `partial_cmp` on a NaN, or an
  out-of-bounds slice index) are modelled by `Option`: a result of `none`
  means the Rust code panics.
* Validated tables store only finite values, so the query-time functions take
  their breakpoint and value arrays as `List ℚ`; the query itself stays `FP`.
* `f64::integer_decode` is injective on bit patterns (it returns the decomposed
  sign/exponent/mantissa), so in the model the cache is keyed by the query
  value itself.  The cache `HashMap` is modelled by an association list where
  insertion conses in front.
-/

/-- Model of an `f64` value: NaN, the infinities, or an exact finite value. -/
inductive FP where
  | nan : FP
  | inf : FP
  | ninf : FP
  | fin : ℚ → FP
deriving DecidableEq, Repr

namespace FP

/-- `f64::is_nan`. -/
def isNan : FP → Bool
  | .nan => true
  | _ => false

/-- `f64::is_infinite`. -/
def isInfinite : FP → Bool
  | .inf => true
  | .ninf => true
  | _ => false

/-- The `<` comparison of IEEE-754 doubles: any comparison with NaN is false. -/
def lt : FP → FP → Bool
  | .nan, _ => false
  | _, .nan => false
  | .ninf, .ninf => false
  | .ninf, _ => true
  | _, .ninf => false
  | .inf, _ => false
  | .fin _, .inf => true
  | .fin a, .fin b => decide (a < b)

/-- IEEE-754 subtraction on the model (exact on finite values). -/
def sub : FP → FP → FP
  | .nan, _ => .nan
  | _, .nan => .nan
  | .inf, .inf => .nan
  | .inf, _ => .inf
  | .ninf, .ninf => .nan
  | .ninf, _ => .ninf
  | .fin _, .inf => .ninf
  | .fin _, .ninf => .inf
  | .fin a, .fin b => .fin (a - b)

/-- IEEE-754 addition on the model (exact on finite values). -/
def add : FP → FP → FP
  | .nan, _ => .nan
  | _, .nan => .nan
  | .inf, .ninf => .nan
  | .ninf, .inf => .nan
  | .inf, _ => .inf
  | _, .inf => .inf
  | .ninf, _ => .ninf
  | _, .ninf => .ninf
  | .fin a, .fin b => .fin (a + b)

/-- IEEE-754 multiplication on the model (exact on finite values). -/
def mul : FP → FP → FP
  | .nan, _ => .nan
  | _, .nan => .nan
  | .inf, .inf => .inf
  | .inf, .ninf => .ninf
  | .ninf, .inf => .ninf
  | .ninf, .ninf => .inf
  | .inf, .fin b => if b = 0 then .nan else if b < 0 then .ninf else .inf
  | .fin a, .inf => if a = 0 then .nan else if a < 0 then .ninf else .inf
  | .ninf, .fin b => if b = 0 then .nan else if b < 0 then .inf else .ninf
  | .fin a, .ninf => if a = 0 then .nan else if a < 0 then .inf else .ninf
  | .fin a, .fin b => .fin (a * b)

/-- IEEE-754 division on the model (exact on finite values, single zero). -/
def div : FP → FP → FP
  | .nan, _ => .nan
  | _, .nan => .nan
  | .inf, .inf => .nan
  | .inf, .ninf => .nan
  | .ninf, .inf => .nan
  | .ninf, .ninf => .nan
  | .inf, .fin b => if b < 0 then .ninf else .inf
  | .ninf, .fin b => if b < 0 then .inf else .ninf
  | .fin _, .inf => .fin 0
  | .fin _, .ninf => .fin 0
  | .fin a, .fin b =>
    if b = 0 then (if a = 0 then .nan else if a < 0 then .ninf else .inf)
    else .fin (a / b)

/-- The rational value of a finite `FP`; junk value `0` on non-finite inputs. -/
def toQ : FP → ℚ
  | .fin q => q
  | _ => 0

@[simp] theorem lt_fin_fin (a b : ℚ) : lt (.fin a) (.fin b) = decide (a < b) := rfl

@[simp] theorem sub_fin_fin (a b : ℚ) : sub (.fin a) (.fin b) = .fin (a - b) := rfl

@[simp] theorem add_fin_fin (a b : ℚ) : add (.fin a) (.fin b) = .fin (a + b) := rfl

@[simp] theorem mul_fin_fin (a b : ℚ) : mul (.fin a) (.fin b) = .fin (a * b) := rfl

theorem div_fin_fin (a b : ℚ) (h : b ≠ 0) : div (.fin a) (.fin b) = .fin (a / b) := by
  simp [div, h]

end FP

/-- `EPSILON` from `src/src/lib.rs` (`0.00000001`). -/
def EPSILON : ℚ := 1 / 100000000

/-- One iteration step structure of Rust's `slice::binary_search_by`:
`left`/`right` delimit the half-open search interval, `mid = left + size / 2`
with `size = right - left`; the comparison `xs[mid].partial_cmp(x)` decides
whether to continue in the right half (`Less`), the left half (`Greater`) or
return `Ok(mid)` (`Equal`).  The `fuel` argument makes the recursion
structural; `right - left` shrinks strictly at every iteration, so any
`fuel ≥ right - left` computes the loop's actual result. -/
def bsLoop (xs : List ℚ) (x : ℚ) : Nat → Nat → Nat → Sum Nat Nat
  | 0, left, _ => Sum.inr left
  | fuel + 1, left, right =>
    if left < right then
      let mid := left + (right - left) / 2
      let v := xs.getD mid 0
      if v < x then bsLoop xs x fuel (mid + 1) right
      else if x < v then bsLoop xs x fuel left mid
      else Sum.inl mid
    else Sum.inr left

/-- Rust's `xs.binary_search_by(|val| val.partial_cmp(x).unwrap())` on a slice
of finite values: `Sum.inl i` models `Ok(i)` (exact match at `i`), `Sum.inr j`
models `Err(j)` (insertion point `j`). -/
def rustBinarySearch (xs : List ℚ) (x : ℚ) : Sum Nat Nat :=
  bsLoop xs x xs.length 0 xs.length

section BinarySearchSpec

/-- Strict monotonicity of a breakpoint list, expressed on indices. -/
def StrictMonoList (xs : List ℚ) : Prop :=
  ∀ i j, i < j → j < xs.length → xs.getD i 0 < xs.getD j 0

theorem bsLoop_spec (xs : List ℚ) (x : ℚ) (hs : StrictMonoList xs) :
    ∀ fuel left right, left ≤ right → right ≤ xs.length → right - left ≤ fuel →
    (∀ k, k < left → xs.getD k 0 < x) →
    (∀ k, right ≤ k → k < xs.length → x < xs.getD k 0) →
    (∀ i, bsLoop xs x fuel left right = Sum.inl i → i < xs.length ∧ xs.getD i 0 = x) ∧
    (∀ j, bsLoop xs x fuel left right = Sum.inr j →
      (∀ k, k < j → xs.getD k 0 < x) ∧ (∀ k, j ≤ k → k < xs.length → x < xs.getD k 0)) := by
  intro fuel
  induction fuel with
  | zero =>
    intro left right hlr hrlen hfuel hlo hhi
    have hle : left = right := by omega
    constructor
    · intro i hi; simp [bsLoop] at hi
    · intro j hj
      simp only [bsLoop, Sum.inr.injEq] at hj
      subst hj
      exact ⟨hlo, fun k hk1 hk2 => hhi k (by omega) hk2⟩
  | succ fuel ih =>
    intro left right hlr hrlen hfuel hlo hhi
    by_cases hcase : left < right
    · have hmid1 : left ≤ left + (right - left) / 2 := Nat.le_add_right _ _
      have hmid2 : left + (right - left) / 2 < right := by
        have : (right - left) / 2 < right - left := Nat.div_lt_self (by omega) (by omega)
        omega
      set mid := left + (right - left) / 2 with hmid
      by_cases h1 : xs.getD mid 0 < x
      · have hrec := ih (mid + 1) right (by omega) hrlen (by omega)
          (fun k hk => by
            rcases Nat.lt_or_ge k left with hk' | hk'
            · exact hlo k hk'
            · rcases Nat.lt_or_ge k mid with hk'' | hk''
              · exact lt_trans (hs k mid hk'' (by omega)) h1
              · have : k = mid := by omega
                subst this; exact h1)
          hhi
        constructor
        · intro i hi
          apply hrec.1
          rw [← hi]
          simp only [bsLoop]
          rw [if_pos hcase, if_pos h1]
        · intro j hj
          apply hrec.2
          rw [← hj]
          simp only [bsLoop]
          rw [if_pos hcase, if_pos h1]
      · by_cases h2 : x < xs.getD mid 0
        · have hrec := ih left mid (by omega) (by omega) (by omega) hlo
            (fun k hk1 hk2 => by
              rcases Nat.lt_or_ge k right with hk' | hk'
              · rcases Nat.lt_or_ge mid k with hk'' | hk''
                · exact lt_trans h2 (hs mid k hk'' (by omega))
                · have : k = mid := by omega
                  subst this; exact h2
              · exact hhi k hk' hk2)
          constructor
          · intro i hi
            apply hrec.1
            rw [← hi]
            simp only [bsLoop]
            rw [if_pos hcase, if_neg h1, if_pos h2]
          · intro j hj
            apply hrec.2
            rw [← hj]
            simp only [bsLoop]
            rw [if_pos hcase, if_neg h1, if_pos h2]
        · have heq : xs.getD mid 0 = x := le_antisymm (not_lt.mp h2) (not_lt.mp h1)
          constructor
          · intro i hi
            simp only [bsLoop] at hi
            rw [if_pos hcase, if_neg h1, if_neg h2] at hi
            cases hi
            exact ⟨by omega, heq⟩
          · intro j hj
            simp only [bsLoop] at hj
            rw [if_pos hcase, if_neg h1, if_neg h2] at hj
            cases hj
    · have hle : left = right := by omega
      constructor
      · intro i hi
        simp only [bsLoop] at hi
        rw [if_neg hcase] at hi
        cases hi
      · intro j hj
        simp only [bsLoop] at hj
        rw [if_neg hcase] at hj
        cases hj
        exact ⟨hlo, fun k hk1 hk2 => hhi k (by omega) hk2⟩

theorem rustBinarySearch_inl (xs : List ℚ) (x : ℚ) (hs : StrictMonoList xs) (i : Nat)
    (h : rustBinarySearch xs x = Sum.inl i) : i < xs.length ∧ xs.getD i 0 = x :=
  ((bsLoop_spec xs x hs xs.length 0 xs.length (Nat.zero_le _) le_rfl (by omega)
    (fun k hk => absurd hk (Nat.not_lt_zero k))
    (fun k hk1 hk2 => absurd hk2 (by omega))).1 i h)

theorem rustBinarySearch_inr (xs : List ℚ) (x : ℚ) (hs : StrictMonoList xs) (j : Nat)
    (h : rustBinarySearch xs x = Sum.inr j) :
    (∀ k, k < j → xs.getD k 0 < x) ∧ (∀ k, j ≤ k → k < xs.length → x < xs.getD k 0) :=
  ((bsLoop_spec xs x hs xs.length 0 xs.length (Nat.zero_le _) le_rfl (by omega)
    (fun k hk => absurd hk (Nat.not_lt_zero k))
    (fun k hk1 hk2 => absurd hk2 (by omega))).2 j h)

/-- On a strictly increasing list, the binary search finds an element that is
present, at its (unique) index. -/
theorem rustBinarySearch_exact (xs : List ℚ) (hs : StrictMonoList xs) (i : Nat)
    (hi : i < xs.length) : rustBinarySearch xs (xs.getD i 0) = Sum.inl i := by
  rcases h : rustBinarySearch xs (xs.getD i 0) with i' | j
  · have hprop := rustBinarySearch_inl xs _ hs i' h
    have : i' = i := by
      rcases Nat.lt_trichotomy i' i with hlt | heq | hgt
      · exact absurd hprop.2 (ne_of_lt (hs i' i hlt hi))
      · exact heq
      · exact absurd hprop.2.symm (ne_of_lt (hs i i' hgt hprop.1))
    rw [this]
  · have hprop := rustBinarySearch_inr xs _ hs j h
    rcases Nat.lt_or_ge i j with hij | hij
    · exact absurd (hprop.1 i hij) (lt_irrefl _)
    · exact absurd (hprop.2 i hij hi) (lt_irrefl _)

/-- On a strictly increasing list, a value lying strictly between two adjacent
breakpoints is not found, with insertion point `i + 1`. -/
theorem rustBinarySearch_between (xs : List ℚ) (x : ℚ) (hs : StrictMonoList xs) (i : Nat)
    (hi : i + 1 < xs.length) (h1 : xs.getD i 0 < x) (h2 : x < xs.getD (i + 1) 0) :
    rustBinarySearch xs x = Sum.inr (i + 1) := by
  rcases h : rustBinarySearch xs x with i' | j
  · have hprop := rustBinarySearch_inl xs x hs i' h
    rcases Nat.lt_or_ge i' (i + 1) with hlt | hge
    · have : xs.getD i' 0 ≤ xs.getD i 0 := by
        rcases Nat.lt_or_ge i' i with hlt' | hge'
        · exact le_of_lt (hs i' i hlt' (by omega))
        · have : i' = i := by omega
          rw [this]
      rw [hprop.2] at this
      exact absurd (lt_of_le_of_lt this h1) (lt_irrefl x)
    · have : xs.getD (i + 1) 0 ≤ xs.getD i' 0 := by
        rcases Nat.lt_or_ge (i + 1) i' with hlt' | hge'
        · exact le_of_lt (hs (i + 1) i' hlt' hprop.1)
        · have : i' = i + 1 := by omega
          rw [this]
      rw [hprop.2] at this
      exact absurd (lt_of_lt_of_le h2 this) (lt_irrefl x)
  · have hprop := rustBinarySearch_inr xs x hs j h
    have hj : j = i + 1 := by
      rcases Nat.lt_or_ge j (i + 1) with hlt | hge
      · exact absurd (lt_trans h1 (hprop.2 i (by omega) (by omega))) (lt_irrefl _)
      · rcases Nat.lt_or_ge (i + 1) j with hlt' | hge'
        · exact absurd (lt_trans h2 (hprop.1 (i + 1) hlt')) (lt_irrefl _)
        · omega
    rw [hj]

end BinarySearchSpec

section Sortedness

/-- The adjacent-gap check of the validators on already-validated (finite)
breakpoints: every adjacent pair satisfies `b - a > EPSILON`
(`xs.windows(2).all(|c| c[1] - c[0] > EPSILON)`). -/
def pairwiseGapsQ : List ℚ → Bool
  | a :: b :: rest => decide (b - a > EPSILON) && pairwiseGapsQ (b :: rest)
  | _ => true

theorem pairwiseGapsQ_adj (xs : List ℚ) (h : pairwiseGapsQ xs = true) :
    ∀ i, i + 1 < xs.length → xs.getD i 0 < xs.getD (i + 1) 0 := by
  induction xs with
  | nil => intro i hi; simp at hi
  | cons a rest ih =>
    intro i hi
    cases rest with
    | nil => simp at hi
    | cons b rest' =>
      simp only [pairwiseGapsQ, Bool.and_eq_true, decide_eq_true_eq] at h
      cases i with
      | zero =>
        have hgap : b - a > EPSILON := h.1
        have heps : (0 : ℚ) < EPSILON := by norm_num [EPSILON]
        simp only [List.getD_cons_zero, List.getD_cons_succ]
        linarith
      | succ n =>
        have hlen : n + 1 < (b :: rest').length := by
          simp only [List.length_cons] at hi ⊢
          omega
        simpa only [List.getD_cons_succ] using ih h.2 n hlen

end Sortedness

theorem strictMono_of_adj (xs : List ℚ)
    (h : ∀ i, i + 1 < xs.length → xs.getD i 0 < xs.getD (i + 1) 0) :
    StrictMonoList xs := by
  have key : ∀ d i, i + d + 1 < xs.length → xs.getD i 0 < xs.getD (i + d + 1) 0 := by
    intro d
    induction d with
    | zero => intro i hi; exact h i hi
    | succ n ihn =>
      intro i hi
      have h1 : xs.getD i 0 < xs.getD (i + n + 1) 0 := ihn i (by omega)
      have h2 : xs.getD (i + n + 1) 0 < xs.getD (i + n + 2) 0 := h (i + n + 1) (by omega)
      have : i + (n + 1) + 1 = i + n + 2 := by omega
      rw [this]
      exact lt_trans h1 h2
  intro i j hij hj
  have : j = i + (j - i - 1) + 1 := by omega
  rw [this]
  exact key (j - i - 1) i (by omega)

theorem strictMono_of_gaps (xs : List ℚ) (h : pairwiseGapsQ xs = true) :
    StrictMonoList xs :=
  strictMono_of_adj xs (pairwiseGapsQ_adj xs h)

/-- A valid 1D table in the sense of the spec (§3, §6): at least two sample
points, breakpoints and values of the same length, breakpoints strictly
increasing with adjacent gaps above `EPSILON`.  All stored values are finite
by construction (they are rationals in the model). -/
def Valid1D (xs ys : List ℚ) : Prop :=
  2 ≤ xs.length ∧ xs.length = ys.length ∧ pairwiseGapsQ xs = true

instance (xs ys : List ℚ) : Decidable (Valid1D xs ys) := by
  unfold Valid1D; infer_instance

namespace OneD

/-- The search-and-interpolate tail of `interpolate`
(`src/src/oned_lut/interpolation.rs:33-44`), reached when the query is inside
the support region: binary-search `xs`; on `Ok(ind)` return `ys[ind]`, on
`Err(lub)` linearly interpolate between `lub - 1` and `lub`.  Slice indexing
is modelled by `List.get?`; `none` models an out-of-bounds panic. -/
def interpSearch (x : ℚ) (xs ys : List ℚ) : Option ℚ :=
  match rustBinarySearch xs x with
  | Sum.inl ind => ys.get? ind
  | Sum.inr lub =>
    match xs.get? (lub - 1), xs.get? lub, ys.get? (lub - 1), ys.get? lub with
    | some xp, some xl, some yp, some yl =>
      some (yp + ((x - xp) / (xl - xp)) * (yl - yp))
    | _, _, _, _ => none

/-- `interpolate` from `src/src/oned_lut/interpolation.rs:24-45`.  The query is
a full `f64` (`FP`); the comparisons with the boundary breakpoints follow IEEE
semantics, and a NaN query reaching `binary_search_by` panics on
`partial_cmp(..).unwrap()` (modelled by `none`). -/
def interpolate (x : FP) (xs ys : List ℚ) : Option ℚ := do
  let x0 ← xs.get? 0
  if FP.lt x (.fin x0) then ys.get? 0
  else
    let xl ← xs.get? (xs.length - 1)
    if FP.lt (.fin xl) x then ys.get? (ys.length - 1)
    else
      match x with
      | .fin q => interpSearch q xs ys
      | _ => none

/-- The memoizing `OneDLookUpTable::get` of `src/src/oned_lut/mod.rs:72-88`:
compute the `integer_decode` key, consult the cache, otherwise interpolate and
insert the result.  The key is the query itself (see the module comment). -/
def get (xs ys : List ℚ) (cache : List (FP × ℚ)) (q : FP) :
    Option (ℚ × List (FP × ℚ)) :=
  match List.lookup q cache with
  | some v => some (v, cache)
  | none =>
    match interpolate q xs ys with
    | some y => some (y, (q, y) :: cache)
    | none => none

end OneD

namespace AebOneD

/-- `OneDLookUpTable::get` of the older copy
(`src/aeb_decision_rust/look_up_table/src/oned_lut.rs:77-113`): the two clamp
checks come BEFORE the cache lookup; on an exact binary-search hit the value is
returned without being inserted into the cache; only the interpolated case is
cached. -/
def get (xs ys : List ℚ) (cache : List (FP × ℚ)) (q : FP) :
    Option (ℚ × List (FP × ℚ)) := do
  let x0 ← xs.get? 0
  if FP.lt q (.fin x0) then do
    let y0 ← ys.get? 0
    some (y0, cache)
  else
    let xl ← xs.get? (xs.length - 1)
    if FP.lt (.fin xl) q then do
      let yl ← ys.get? (ys.length - 1)
      some (yl, cache)
    else
      match List.lookup q cache with
      | some v => some (v, cache)
      | none =>
        match q with
        | .fin qq =>
          match rustBinarySearch xs qq with
          | Sum.inl ind => (ys.get? ind).map (fun y => (y, cache))
          | Sum.inr lub =>
            match xs.get? (lub - 1), xs.get? lub, ys.get? (lub - 1), ys.get? lub with
            | some xp, some xl', some yp, some yl' =>
              let y := yp + ((qq - xp) / (xl' - xp)) * (yl' - yp)
              some (y, (q, y) :: cache)
            | _, _, _, _ => none
        | _ => none

end AebOneD

namespace TwoD

/-- `get_indices` from `src/src/twod_lut/interpolation.rs:77-88`: clamp to
`(0, 0)` below the first breakpoint and `(len-1, len-1)` above the last,
otherwise binary-search; `Ok(i)` gives `(i, i)`, `Err(i)` gives `(i-1, i)`.
A NaN query reaches `partial_cmp(..).unwrap()` and panics (`none`). -/
def get_indices (v : FP) (vs : List ℚ) : Option (Nat × Nat) := do
  let v0 ← vs.get? 0
  if FP.lt v (.fin v0) then some (0, 0)
  else
    let vl ← vs.get? (vs.length - 1)
    if FP.lt (.fin vl) v then some (vs.length - 1, vs.length - 1)
    else
      match v with
      | .fin q =>
        match rustBinarySearch vs q with
        | Sum.inl ind => some (ind, ind)
        | Sum.inr ind => some (ind - 1, ind)
      | _ => none

/-- `interpolate` from `src/src/twod_lut/interpolation.rs:90-131`: resolve both
index pairs, read the four corners (`surface[y_ind][x_ind]`: row index is the
y index, column index is the x index), then apply the degenerate-corner
value-equality policy; the arithmetic on the (possibly non-finite) queries
follows IEEE semantics. -/
def interpolate (x y : FP) (xs ys : List ℚ) (surface : List (List ℚ)) :
    Option FP :=
  match get_indices x xs, get_indices y ys with
  | some (x1i, x2i), some (y1i, y2i) =>
    match xs.get? x1i, xs.get? x2i, ys.get? y1i, ys.get? y2i with
    | some x1, some x2, some y1, some y2 =>
      match surface.get? y1i, surface.get? y2i with
      | some row1, some row2 =>
        match row1.get? x1i, row1.get? x2i, row2.get? x1i, row2.get? x2i with
        | some fq11, some fq12, some fq21, some fq22 =>
          if fq11 = fq22 then
            some (.fin fq11)
          else if fq11 = fq21 then
            let alpha := FP.div (FP.sub x (.fin x1)) (.fin (x2 - x1))
            some (FP.add (.fin fq11) (FP.mul alpha (.fin (fq12 - fq11))))
          else if fq11 = fq12 then
            let alpha := FP.div (FP.sub y (.fin y1)) (.fin (y2 - y1))
            some (FP.add (.fin fq11) (FP.mul alpha (.fin (fq21 - fq11))))
          else
            let alphaX := FP.div (FP.sub x (.fin x1)) (.fin (x2 - x1))
            let alphaY := FP.div (FP.sub y (.fin y1)) (.fin (y2 - y1))
            let fxy1 := FP.add (.fin fq11) (FP.mul alphaX (.fin (fq21 - fq11)))
            let fxy2 := FP.add (.fin fq12) (FP.mul alphaX (.fin (fq22 - fq12)))
            some (FP.add fxy1 (FP.mul (FP.sub fxy2 fxy1) alphaY))
        | _, _, _, _ => none
      | _, _ => none
    | _, _, _, _ => none
  | _, _ => none

/-- The memoizing `TwoDLookUpTable::get` of `src/src/twod_lut/mod.rs:97-111`:
key first, then cache lookup, then interpolate and insert. -/
def get (xs ys : List ℚ) (surface : List (List ℚ))
    (cache : List ((FP × FP) × FP)) (x y : FP) :
    Option (FP × List ((FP × FP) × FP)) :=
  match List.lookup (x, y) cache with
  | some v => some (v, cache)
  | none =>
    match interpolate x y xs ys surface with
    | some z => some (z, ((x, y), z) :: cache)
    | none => none

end TwoD

/-- A valid 2D table: both axes valid as breakpoint sequences and the surface
rectangular, indexed as `surface[y_index][x_index]` (spec §4.3 orientation). -/
def Valid2D (xs ys : List ℚ) (surface : List (List ℚ)) : Prop :=
  2 ≤ xs.length ∧ 2 ≤ ys.length ∧
  pairwiseGapsQ xs = true ∧ pairwiseGapsQ ys = true ∧
  surface.length = ys.length ∧ ∀ row ∈ surface, row.length = xs.length

section Validation

/-- `ConstructionError` from `src/src/error.rs`, with the variant names used at
the 1D validator (`IncreasingXOrderError` is the strict-increase failure,
called `IncreasingDimOrderError` in `error.rs`). -/
inductive ConstructionError where
  | IncreasingXOrderError
  | ContainingNansOrInfinities
  | MinLengthError
deriving DecidableEq, Repr

/-- `v.is_nan() || v.is_infinite()` mapped over a sequence
(`xs.iter().any(..)`). -/
def hasNanOrInf (xs : List FP) : Bool :=
  xs.any fun v => v.isNan || v.isInfinite

/-- One window check `c[1] - c[0] > EPSILON` on raw `f64` values. -/
def gapGtFP (a b : FP) : Bool :=
  FP.lt (.fin EPSILON) (FP.sub b a)

/-- `xs.windows(2).all(|c| c[1] - c[0] > EPSILON)`. -/
def windowsGapOk : List FP → Bool
  | a :: b :: rest => gapGtFP a b && windowsGapOk (b :: rest)
  | _ => true

/-- `is_object_constructible` from `src/src/oned_lut/interpolation.rs:8-22`:
the three checks in program order, each returning early on failure. -/
def is_object_constructible (xs ys : List FP) : Except ConstructionError Bool :=
  if xs.length < 2 ∨ ys.length < 2 then .error .MinLengthError
  else if hasNanOrInf xs || hasNanOrInf ys then .error .ContainingNansOrInfinities
  else if ¬ windowsGapOk xs then .error .IncreasingXOrderError
  else .ok true

/-- The data held by a constructed `OneDLookUpTable` / `OneDLookUpTableRef`
(the cache starts empty and is not part of construction). -/
structure OneDTable where
  x : List FP
  y : List FP
deriving DecidableEq, Repr

/-- `OneDLookUpTable::new` (`src/src/oned_lut/mod.rs:60-66`): validate, then
build the table from the unchanged inputs. -/
def OneDLookUpTable.new (x y : List FP) : Except ConstructionError OneDTable :=
  (is_object_constructible x y).map fun _ => ⟨x, y⟩

/-- `OneDLookUpTableRef::new` (`src/src/oned_lut/mod.rs:100-107`): identical
validation over borrowed slices. -/
def OneDLookUpTableRef.new (xs ys : List FP) : Except ConstructionError OneDTable :=
  (is_object_constructible xs ys).map fun _ => ⟨xs, ys⟩

/-- `is_object_constructible_dynamic` from
`src/src/twod_lut/interpolation.rs:48-71`, with its literal error strings. -/
def is_object_constructible_dynamic (xs ys : List FP) (surface : List (List FP)) :
    Except String Bool :=
  if xs.length < 2 ∨ ys.length < 2 then
    .error "At least two values should be provided for x and y axes"
  else if hasNanOrInf xs || hasNanOrInf ys || surface.any (fun row => hasNanOrInf row) then
    .error "Cannot create a Lookup Table containing NaNs or Infinities"
  else if ¬ windowsGapOk xs ∨ ¬ windowsGapOk ys then
    .error "X and Y values should be in strictly increasing order"
  else .ok true

/-- Spec §4.1 check 1 for one dimension: fewer than 2 elements. -/
def SpecMinLen (xs ys : List FP) : Prop :=
  xs.length < 2 ∨ ys.length < 2

/-- Spec §4.1 check 2 for one sequence: some element is NaN or ±Infinity. -/
def SpecSeqInvalid (xs : List FP) : Prop :=
  ∃ v ∈ xs, v.isNan = true ∨ v.isInfinite = true

/-- Spec §4.1 check 3 failure for one breakpoint sequence: some adjacent gap
does not exceed `EPSILON` (values read as rationals; meaningful once check 2
has passed, i.e. all elements are finite). -/
def SpecGapTooSmall (xs : List FP) : Prop :=
  ∃ i, i + 1 < xs.length ∧ (xs.getD (i + 1) .nan).toQ - (xs.getD i .nan).toQ ≤ EPSILON

theorem hasNanOrInf_iff (xs : List FP) :
    hasNanOrInf xs = true ↔ SpecSeqInvalid xs := by
  simp [hasNanOrInf, SpecSeqInvalid, List.any_eq_true, Bool.or_eq_true]

theorem allFin_of_not_nanInf (xs : List FP) (h : hasNanOrInf xs = false) :
    ∀ v ∈ xs, ∃ q : ℚ, v = .fin q := by
  intro v hv
  have hva : (v.isNan || v.isInfinite) = false := by
    by_contra hcon
    have : hasNanOrInf xs = true :=
      List.any_eq_true.mpr ⟨v, hv, by revert hcon; cases v.isNan || v.isInfinite <;> simp⟩
    rw [h] at this
    cases this
  cases v with
  | nan => simp [FP.isNan] at hva
  | inf => simp [FP.isInfinite] at hva
  | ninf => simp [FP.isInfinite] at hva
  | fin q => exact ⟨q, rfl⟩

theorem specGapTooSmall_cons (a b : FP) (rest : List FP) :
    SpecGapTooSmall (a :: b :: rest) ↔
      (b.toQ - a.toQ ≤ EPSILON ∨ SpecGapTooSmall (b :: rest)) := by
  constructor
  · rintro ⟨i, hi, hle⟩
    cases i with
    | zero =>
      left
      simpa using hle
    | succ n =>
      right
      refine ⟨n, ?_, ?_⟩
      · simp only [List.length_cons] at hi ⊢
        omega
      · simpa using hle
  · rintro (hle | ⟨n, hn, hle⟩)
    · exact ⟨0, by simp, by simpa using hle⟩
    · refine ⟨n + 1, ?_, ?_⟩
      · simp only [List.length_cons] at hn ⊢
        omega
      · simpa using hle

theorem specGapTooSmall_short (xs : List FP) (h : xs.length ≤ 1) :
    ¬ SpecGapTooSmall xs := by
  rintro ⟨i, hi, _⟩
  omega

theorem windowsGapOk_iff (xs : List FP) (hnf : hasNanOrInf xs = false) :
    windowsGapOk xs = true ↔ ¬ SpecGapTooSmall xs := by
  induction xs with
  | nil =>
    simp [windowsGapOk, specGapTooSmall_short]
  | cons a rest ih =>
    cases rest with
    | nil =>
      simp [windowsGapOk]
      exact specGapTooSmall_short [a] (by simp)
    | cons b rest' =>
      have hnfa : (a.isNan || a.isInfinite) = false ∧ hasNanOrInf (b :: rest') = false := by
        simpa [hasNanOrInf, Bool.or_eq_false_iff] using
          (by simpa [hasNanOrInf] using hnf :
            (a.isNan || a.isInfinite) = false ∧ hasNanOrInf (b :: rest') = false)
      obtain ⟨qa, hqa⟩ := allFin_of_not_nanInf (a :: b :: rest') hnf a (by simp)
      obtain ⟨qb, hqb⟩ := allFin_of_not_nanInf (a :: b :: rest') hnf b (by simp)
      have ihb := ih hnfa.2
      subst hqa hqb
      simp only [windowsGapOk, Bool.and_eq_true, gapGtFP, FP.sub_fin_fin, FP.lt_fin_fin,
        decide_eq_true_eq, specGapTooSmall_cons, FP.toQ]
      rw [ihb]
      constructor
      · rintro ⟨hgap, hrest⟩
        rintro (hle | hsm)
        · linarith
        · exact hrest hsm
      · intro h
        push_neg at h
        exact ⟨by linarith [h.1], h.2⟩

end Validation

section OneDLemmas

theorem get?_eq_some_getD {α : Type} (d : α) (xs : List α) (i : Nat) (h : i < xs.length) :
    xs.get? i = some (xs.getD i d) := by
  induction xs generalizing i with
  | nil => simp at h
  | cons a rest ih =>
    cases i with
    | zero => simp
    | succ n =>
      simp only [List.length_cons] at h
      simpa using ih n (by omega)

theorem valid1D_strictMono (xs ys : List ℚ) (hv : Valid1D xs ys) : StrictMonoList xs :=
  strictMono_of_gaps xs hv.2.2

/-- For an in-domain query that binary search does not find, `interpolate`
returns exactly the lerp formula of the claim, and the insertion point is
interior (`1 ≤ lub ≤ len - 1`). -/
theorem interpolate_notFound (xs ys : List ℚ) (q : ℚ) (lub : Nat)
    (hv : Valid1D xs ys)
    (h0 : xs.getD 0 0 ≤ q) (h1 : q ≤ xs.getD (xs.length - 1) 0)
    (hbs : rustBinarySearch xs q = Sum.inr lub) :
    1 ≤ lub ∧ lub ≤ xs.length - 1 ∧
    OneD.interpolate (.fin q) xs ys =
      some (ys.getD (lub - 1) 0 +
        ((q - xs.getD (lub - 1) 0) / (xs.getD lub 0 - xs.getD (lub - 1) 0)) *
        (ys.getD lub 0 - ys.getD (lub - 1) 0)) := by
  obtain ⟨hlen, hleneq, hgaps⟩ := hv
  have hs := strictMono_of_gaps xs hgaps
  have hprop := rustBinarySearch_inr xs q hs lub hbs
  have hlub1 : 1 ≤ lub := by
    by_contra hcon
    have hlub0 : lub = 0 := by omega
    have := hprop.2 0 (by omega) (by omega)
    exact absurd (lt_of_le_of_lt h0 this) (lt_irrefl _)
  have hlub2 : lub ≤ xs.length - 1 := by
    by_contra hcon
    have : xs.length - 1 < lub := by omega
    have := hprop.1 (xs.length - 1) this
    exact absurd (lt_of_le_of_lt h1 this) (lt_irrefl q)
  refine ⟨hlub1, hlub2, ?_⟩
  unfold OneD.interpolate
  rw [get?_eq_some_getD 0 xs 0 (by omega)]
  have hb0 : ¬ (FP.lt (.fin q) (.fin (xs.getD 0 0)) = true) := by
    simp only [FP.lt_fin_fin, decide_eq_true_eq, not_lt]
    exact h0
  have hbl : ¬ (FP.lt (.fin (xs.getD (xs.length - 1) 0)) (.fin q) = true) := by
    simp only [FP.lt_fin_fin, decide_eq_true_eq, not_lt]
    exact h1
  rw [get?_eq_some_getD 0 xs (xs.length - 1) (by omega)]
  simp only [Option.bind_eq_bind, Option.some_bind, if_neg hb0, if_neg hbl]
  simp only [OneD.interpSearch, hbs]
  rw [get?_eq_some_getD 0 xs (lub - 1) (by omega), get?_eq_some_getD 0 xs lub (by omega),
    get?_eq_some_getD 0 ys (lub - 1) (by omega), get?_eq_some_getD 0 ys lub (by omega)]

/-- An exact breakpoint query short-circuits to the stored value. -/
theorem interpolate_exact (xs ys : List ℚ) (i : Nat)
    (hv : Valid1D xs ys) (hi : i < xs.length) :
    OneD.interpolate (.fin (xs.getD i 0)) xs ys = some (ys.getD i 0) := by
  obtain ⟨hlen, hleneq, hgaps⟩ := hv
  have hs := strictMono_of_gaps xs hgaps
  have h0 : xs.getD 0 0 ≤ xs.getD i 0 := by
    cases Nat.eq_zero_or_pos i with
    | inl h => rw [h]
    | inr h => exact le_of_lt (hs 0 i h hi)
  have h1 : xs.getD i 0 ≤ xs.getD (xs.length - 1) 0 := by
    rcases Nat.lt_or_ge i (xs.length - 1) with h | h
    · exact le_of_lt (hs i (xs.length - 1) h (by omega))
    · have : i = xs.length - 1 := by omega
      rw [this]
  unfold OneD.interpolate
  rw [get?_eq_some_getD 0 xs 0 (by omega)]
  have hb0 : ¬ (FP.lt (.fin (xs.getD i 0)) (.fin (xs.getD 0 0)) = true) := by
    simp only [FP.lt_fin_fin, decide_eq_true_eq, not_lt]
    exact h0
  have hbl : ¬ (FP.lt (.fin (xs.getD (xs.length - 1) 0)) (.fin (xs.getD i 0)) = true) := by
    simp only [FP.lt_fin_fin, decide_eq_true_eq, not_lt]
    exact h1
  rw [get?_eq_some_getD 0 xs (xs.length - 1) (by omega)]
  simp only [Option.bind_eq_bind, Option.some_bind, if_neg hb0, if_neg hbl]
  simp only [OneD.interpSearch, rustBinarySearch_exact xs hs i hi]
  exact get?_eq_some_getD 0 ys i (by omega)

/-- Clamp-left: a query below the first breakpoint returns the first value. -/
theorem interpolate_clampLeft (xs ys : List ℚ) (q : FP)
    (hv : Valid1D xs ys) (h : FP.lt q (.fin (xs.getD 0 0)) = true) :
    OneD.interpolate q xs ys = some (ys.getD 0 0) := by
  obtain ⟨hlen, hleneq, _⟩ := hv
  unfold OneD.interpolate
  rw [get?_eq_some_getD 0 xs 0 (by omega)]
  simp only [Option.bind_eq_bind, Option.some_bind, if_pos h]
  exact get?_eq_some_getD 0 ys 0 (by omega)

/-- Clamp-right: a query above the last breakpoint returns the last value. -/
theorem interpolate_clampRight (xs ys : List ℚ) (q : FP)
    (hv : Valid1D xs ys)
    (h0 : ¬ (FP.lt q (.fin (xs.getD 0 0)) = true))
    (h : FP.lt (.fin (xs.getD (xs.length - 1) 0)) q = true) :
    OneD.interpolate q xs ys = some (ys.getD (ys.length - 1) 0) := by
  obtain ⟨hlen, hleneq, _⟩ := hv
  unfold OneD.interpolate
  rw [get?_eq_some_getD 0 xs 0 (by omega)]
  simp only [Option.bind_eq_bind, Option.some_bind, if_neg h0]
  rw [get?_eq_some_getD 0 xs (xs.length - 1) (by omega)]
  simp only [Option.some_bind, if_pos h]
  exact get?_eq_some_getD 0 ys (ys.length - 1) (by omega)

/-- Query-time totality for non-NaN queries on valid tables. -/
theorem interpolate_total (xs ys : List ℚ) (q : FP)
    (hv : Valid1D xs ys) (hq : q ≠ .nan) :
    (OneD.interpolate q xs ys).isSome = true := by
  obtain ⟨hlen, hleneq, hgaps⟩ := hv
  have hs := strictMono_of_gaps xs hgaps
  by_cases h0 : FP.lt q (.fin (xs.getD 0 0)) = true
  · rw [interpolate_clampLeft xs ys q ⟨hlen, hleneq, hgaps⟩ h0]
    rfl
  · by_cases h1 : FP.lt (.fin (xs.getD (xs.length - 1) 0)) q = true
    · rw [interpolate_clampRight xs ys q ⟨hlen, hleneq, hgaps⟩ h0 h1]
      rfl
    · cases q with
      | nan => exact absurd rfl hq
      | inf =>
        exfalso
        apply h1
        rfl
      | ninf =>
        exfalso
        apply h0
        rfl
      | fin qq =>
        have hq0 : xs.getD 0 0 ≤ qq := by
          simpa only [FP.lt_fin_fin, decide_eq_true_eq, not_lt] using h0
        have hq1 : qq ≤ xs.getD (xs.length - 1) 0 := by
          simpa only [FP.lt_fin_fin, decide_eq_true_eq, not_lt] using h1
        rcases hbs : rustBinarySearch xs qq with ind | lub
        · have hind := rustBinarySearch_inl xs qq hs ind hbs
          have : xs.getD ind 0 = qq := hind.2
          rw [← this, interpolate_exact xs ys ind ⟨hlen, hleneq, hgaps⟩ hind.1]
          rfl
        · obtain ⟨_, _, heq⟩ :=
            interpolate_notFound xs ys qq lub ⟨hlen, hleneq, hgaps⟩ hq0 hq1 hbs
          rw [heq]
          rfl

/-- A NaN query reaches `partial_cmp(..).unwrap()` inside `binary_search_by`
and panics. -/
theorem interpolate_nan (xs ys : List ℚ) (hv : Valid1D xs ys) :
    OneD.interpolate .nan xs ys = none := by
  obtain ⟨hlen, hleneq, _⟩ := hv
  unfold OneD.interpolate
  rw [get?_eq_some_getD 0 xs 0 (by omega), get?_eq_some_getD 0 xs (xs.length - 1) (by omega)]
  simp [FP.lt]

/-- Cache soundness invariant: every cached entry records the interpolation
result for its key.  The empty cache satisfies it, and `OneD.get` preserves
it. -/
def CacheConsistent (xs ys : List ℚ) (cache : List (FP × ℚ)) : Prop :=
  ∀ k v, List.lookup k cache = some v → OneD.interpolate k xs ys = some v

theorem cacheConsistent_nil (xs ys : List ℚ) : CacheConsistent xs ys [] := by
  intro k v h
  simp [List.lookup] at h

/-- On a consistent cache, `get` returns the interpolation result, records it
under the query key, and the resulting cache is consistent again. -/
theorem get_spec (xs ys : List ℚ) (cache : List (FP × ℚ)) (q : FP) (y : ℚ)
    (hc : CacheConsistent xs ys cache)
    (hy : OneD.interpolate q xs ys = some y) :
    ∃ cache', OneD.get xs ys cache q = some (y, cache') ∧
      List.lookup q cache' = some y ∧ CacheConsistent xs ys cache' := by
  unfold OneD.get
  cases hl : List.lookup q cache with
  | some v =>
    have := hc q v hl
    rw [hy] at this
    cases this
    exact ⟨cache, rfl, hl, hc⟩
  | none =>
    rw [hy]
    refine ⟨(q, y) :: cache, rfl, ?_, ?_⟩
    · simp [List.lookup]
    · intro k v hkv
      by_cases hk : k = q
      · subst hk
        simp only [List.lookup, beq_self_eq_true, cond_true, Option.some.injEq] at hkv
        rw [hy, hkv]
      · have hbeq : (k == q) = false := beq_false_of_ne hk
        simp only [List.lookup, hbeq, cond_false] at hkv
        exact hc k v hkv

end OneDLemmas

section TwoDLemmas

theorem get_indices_below (vs : List ℚ) (v : FP) (hlen : 2 ≤ vs.length)
    (h : FP.lt v (.fin (vs.getD 0 0)) = true) :
    TwoD.get_indices v vs = some (0, 0) := by
  unfold TwoD.get_indices
  rw [get?_eq_some_getD 0 vs 0 (by omega)]
  simp only [Option.bind_eq_bind, Option.some_bind, if_pos h]

theorem get_indices_above (vs : List ℚ) (v : FP) (hlen : 2 ≤ vs.length)
    (hs : StrictMonoList vs)
    (h : FP.lt (.fin (vs.getD (vs.length - 1) 0)) v = true) :
    TwoD.get_indices v vs = some (vs.length - 1, vs.length - 1) := by
  have h0 : ¬ (FP.lt v (.fin (vs.getD 0 0)) = true) := by
    cases v with
    | nan => simp [FP.lt]
    | inf => simp [FP.lt]
    | ninf => simp [FP.lt] at h
    | fin q =>
      have hv0 : vs.getD 0 0 < vs.getD (vs.length - 1) 0 := hs 0 (vs.length - 1) (by omega) (by omega)
      have hq : vs.getD (vs.length - 1) 0 < q := by simpa using h
      simp only [FP.lt_fin_fin, decide_eq_true_eq, not_lt]
      linarith
  unfold TwoD.get_indices
  rw [get?_eq_some_getD 0 vs 0 (by omega)]
  simp only [Option.bind_eq_bind, Option.some_bind, if_neg h0]
  rw [get?_eq_some_getD 0 vs (vs.length - 1) (by omega)]
  simp only [Option.some_bind, if_pos h]

theorem get_indices_exact (vs : List ℚ) (i : Nat) (hlen : 2 ≤ vs.length)
    (hs : StrictMonoList vs) (hi : i < vs.length) :
    TwoD.get_indices (.fin (vs.getD i 0)) vs = some (i, i) := by
  have h0 : ¬ (FP.lt (.fin (vs.getD i 0)) (.fin (vs.getD 0 0)) = true) := by
    simp only [FP.lt_fin_fin, decide_eq_true_eq, not_lt]
    cases Nat.eq_zero_or_pos i with
    | inl h => rw [h]
    | inr h => exact le_of_lt (hs 0 i h hi)
  have h1 : ¬ (FP.lt (.fin (vs.getD (vs.length - 1) 0)) (.fin (vs.getD i 0)) = true) := by
    simp only [FP.lt_fin_fin, decide_eq_true_eq, not_lt]
    rcases Nat.lt_or_ge i (vs.length - 1) with h | h
    · exact le_of_lt (hs i (vs.length - 1) h (by omega))
    · have : i = vs.length - 1 := by omega
      rw [this]
  unfold TwoD.get_indices
  rw [get?_eq_some_getD 0 vs 0 (by omega)]
  simp only [Option.bind_eq_bind, Option.some_bind, if_neg h0]
  rw [get?_eq_some_getD 0 vs (vs.length - 1) (by omega)]
  simp only [Option.some_bind, if_neg h1, rustBinarySearch_exact vs hs i hi]

theorem get_indices_between (vs : List ℚ) (q : ℚ) (i : Nat) (hlen : 2 ≤ vs.length)
    (hs : StrictMonoList vs) (hi : i + 1 < vs.length)
    (h1 : vs.getD i 0 < q) (h2 : q < vs.getD (i + 1) 0) :
    TwoD.get_indices (.fin q) vs = some (i, i + 1) := by
  have h0 : ¬ (FP.lt (.fin q) (.fin (vs.getD 0 0)) = true) := by
    simp only [FP.lt_fin_fin, decide_eq_true_eq, not_lt]
    cases Nat.eq_zero_or_pos i with
    | inl h =>
      rw [h] at h1
      exact le_of_lt h1
    | inr h => exact le_of_lt (lt_trans (hs 0 i h (by omega)) h1)
  have hlast : ¬ (FP.lt (.fin (vs.getD (vs.length - 1) 0)) (.fin q) = true) := by
    simp only [FP.lt_fin_fin, decide_eq_true_eq, not_lt]
    rcases Nat.lt_or_ge (i + 1) (vs.length - 1) with h | h
    · exact le_of_lt (lt_trans h2 (hs (i + 1) (vs.length - 1) h (by omega)))
    · have : i + 1 = vs.length - 1 := by omega
      rw [← this]
      exact le_of_lt h2
  unfold TwoD.get_indices
  rw [get?_eq_some_getD 0 vs 0 (by omega)]
  simp only [Option.bind_eq_bind, Option.some_bind, if_neg h0]
  rw [get?_eq_some_getD 0 vs (vs.length - 1) (by omega)]
  simp only [Option.some_bind, if_neg hlast,
    rustBinarySearch_between vs q hs i hi h1 h2, Nat.add_sub_cancel]

/-- For a non-NaN query on a valid axis, `get_indices` resolves to an ordered
in-range index pair. -/
theorem get_indices_total (vs : List ℚ) (v : FP) (hlen : 2 ≤ vs.length)
    (hs : StrictMonoList vs) (hv : v ≠ .nan) :
    ∃ a b, TwoD.get_indices v vs = some (a, b) ∧ a ≤ b ∧ b < vs.length := by
  by_cases h0 : FP.lt v (.fin (vs.getD 0 0)) = true
  · exact ⟨0, 0, get_indices_below vs v hlen h0, le_rfl, by omega⟩
  · by_cases h1 : FP.lt (.fin (vs.getD (vs.length - 1) 0)) v = true
    · exact ⟨vs.length - 1, vs.length - 1, get_indices_above vs v hlen hs h1, le_rfl, by omega⟩
    · cases v with
      | nan => exact absurd rfl hv
      | inf => exact absurd rfl h1
      | ninf => exact absurd rfl h0
      | fin q =>
        have hq0 : vs.getD 0 0 ≤ q := by
          simpa only [FP.lt_fin_fin, decide_eq_true_eq, not_lt] using h0
        have hq1 : q ≤ vs.getD (vs.length - 1) 0 := by
          simpa only [FP.lt_fin_fin, decide_eq_true_eq, not_lt] using h1
        unfold TwoD.get_indices
        rw [get?_eq_some_getD 0 vs 0 (by omega)]
        simp only [Option.bind_eq_bind, Option.some_bind, if_neg h0]
        rw [get?_eq_some_getD 0 vs (vs.length - 1) (by omega)]
        simp only [Option.some_bind, if_neg h1]
        rcases hbs : rustBinarySearch vs q with ind | lub
        · have hind := rustBinarySearch_inl vs q hs ind hbs
          exact ⟨ind, ind, rfl, le_rfl, hind.1⟩
        · have hprop := rustBinarySearch_inr vs q hs lub hbs
          have hlub1 : 1 ≤ lub := by
            by_contra hcon
            have hlub0 : lub = 0 := by omega
            have := hprop.2 0 (by omega) (by omega)
            exact absurd (lt_of_le_of_lt hq0 this) (lt_irrefl _)
          have hlub2 : lub ≤ vs.length - 1 := by
            by_contra hcon
            have := hprop.1 (vs.length - 1) (by omega)
            exact absurd (lt_of_le_of_lt hq1 this) (lt_irrefl _)
          exact ⟨lub - 1, lub, rfl, by omega, by omega⟩

/-- 2D query-time totality for non-NaN query pairs on valid tables. -/
theorem interpolate2_total (xs ys : List ℚ) (surface : List (List ℚ)) (x y : FP)
    (hv : Valid2D xs ys surface) (hx : x ≠ .nan) (hy : y ≠ .nan) :
    (TwoD.interpolate x y xs ys surface).isSome = true := by
  obtain ⟨hlx, hly, hgx, hgy, hslen, hrows⟩ := hv
  obtain ⟨a, b, hab, haleb, hblt⟩ :=
    get_indices_total xs x hlx (strictMono_of_gaps xs hgx) hx
  obtain ⟨c, d, hcd, hcled, hdlt⟩ :=
    get_indices_total ys y hly (strictMono_of_gaps ys hgy) hy
  have hc : c < surface.length := by omega
  have hd : d < surface.length := by omega
  have hrowc := get?_eq_some_getD ([] : List ℚ) surface c hc
  have hrowd := get?_eq_some_getD ([] : List ℚ) surface d hd
  have hrowc_len : (surface.getD c []).length = xs.length :=
    hrows _ (List.get?_mem hrowc)
  have hrowd_len : (surface.getD d []).length = xs.length :=
    hrows _ (List.get?_mem hrowd)
  unfold TwoD.interpolate
  rw [hab, hcd]
  simp only []
  rw [get?_eq_some_getD 0 xs a (by omega), get?_eq_some_getD 0 xs b (by omega),
    get?_eq_some_getD 0 ys c (by omega), get?_eq_some_getD 0 ys d (by omega)]
  simp only []
  rw [hrowc, hrowd]
  simp only []
  rw [get?_eq_some_getD 0 (surface.getD c []) a (by omega),
    get?_eq_some_getD 0 (surface.getD c []) b (by omega),
    get?_eq_some_getD 0 (surface.getD d []) a (by omega),
    get?_eq_some_getD 0 (surface.getD d []) b (by omega)]
  simp only []
  split_ifs <;> rfl

/-- A NaN coordinate reaches `get_indices`, whose `binary_search_by` panics. -/
theorem interpolate2_nan (xs ys : List ℚ) (surface : List (List ℚ)) (x y : FP)
    (hv : Valid2D xs ys surface) (h : x = .nan ∨ y = .nan) :
    TwoD.interpolate x y xs ys surface = none := by
  obtain ⟨hlx, hly, hgx, hgy, hslen, hrows⟩ := hv
  have hnan : ∀ vs : List ℚ, 2 ≤ vs.length → TwoD.get_indices (.nan) vs = none := by
    intro vs hlen
    unfold TwoD.get_indices
    rw [get?_eq_some_getD 0 vs 0 (by omega), get?_eq_some_getD 0 vs (vs.length - 1) (by omega)]
    simp [FP.lt]
  rcases h with h | h
  · subst h
    unfold TwoD.interpolate
    rw [hnan xs hlx]
  · subst h
    unfold TwoD.interpolate
    rw [hnan ys hly]
    rcases hres : TwoD.get_indices x xs with _ | p
    · rfl
    · rcases p with ⟨a, b⟩
      rfl

/-- Interior bilinear case: both queries strictly between adjacent
breakpoints; the result is the exact degenerate-corner-policy formula of the
spec, with all arithmetic exact. -/
theorem interpolate2_interior (xs ys : List ℚ) (surface : List (List ℚ))
    (qx qy : ℚ) (i j : Nat)
    (hv : Valid2D xs ys surface)
    (hi : i + 1 < xs.length) (hj : j + 1 < ys.length)
    (hx1 : xs.getD i 0 < qx) (hx2 : qx < xs.getD (i + 1) 0)
    (hy1 : ys.getD j 0 < qy) (hy2 : qy < ys.getD (j + 1) 0)
    (x1 x2 y1 y2 f11 f12 f21 f22 ax ay : ℚ)
    (hex1 : x1 = xs.getD i 0) (hex2 : x2 = xs.getD (i + 1) 0)
    (hey1 : y1 = ys.getD j 0) (hey2 : y2 = ys.getD (j + 1) 0)
    (hef11 : f11 = (surface.getD j []).getD i 0)
    (hef12 : f12 = (surface.getD j []).getD (i + 1) 0)
    (hef21 : f21 = (surface.getD (j + 1) []).getD i 0)
    (hef22 : f22 = (surface.getD (j + 1) []).getD (i + 1) 0)
    (heax : ax = (qx - x1) / (x2 - x1)) (heay : ay = (qy - y1) / (y2 - y1)) :
    TwoD.interpolate (.fin qx) (.fin qy) xs ys surface =
      some (.fin (
        if f11 = f22 then f11
        else if f11 = f21 then f11 + ax * (f12 - f11)
        else if f11 = f12 then f11 + ay * (f21 - f11)
        else (f11 + ax * (f21 - f11)) +
          ((f12 + ax * (f22 - f12)) - (f11 + ax * (f21 - f11))) * ay)) := by
  obtain ⟨hlx, hly, hgx, hgy, hslen, hrows⟩ := hv
  have hsx := strictMono_of_gaps xs hgx
  have hsy := strictMono_of_gaps ys hgy
  have hab := get_indices_between xs qx i hlx hsx hi hx1 hx2
  have hcd := get_indices_between ys qy j hly hsy hj hy1 hy2
  have hcj : j < surface.length := by omega
  have hdj : j + 1 < surface.length := by omega
  have hrowc := get?_eq_some_getD ([] : List ℚ) surface j hcj
  have hrowd := get?_eq_some_getD ([] : List ℚ) surface (j + 1) hdj
  have hrowc_len : (surface.getD j []).length = xs.length :=
    hrows _ (List.get?_mem hrowc)
  have hrowd_len : (surface.getD (j + 1) []).length = xs.length :=
    hrows _ (List.get?_mem hrowd)
  have hxne : xs.getD (i + 1) 0 - xs.getD i 0 ≠ 0 :=
    sub_ne_zero.mpr (ne_of_gt (hsx i (i + 1) (by omega) hi))
  have hyne : ys.getD (j + 1) 0 - ys.getD j 0 ≠ 0 :=
    sub_ne_zero.mpr (ne_of_gt (hsy j (j + 1) (by omega) hj))
  subst hex1 hex2 hey1 hey2 hef11 hef12 hef21 hef22 heax heay
  unfold TwoD.interpolate
  rw [hab, hcd]
  simp only []
  rw [get?_eq_some_getD 0 xs i (by omega), get?_eq_some_getD 0 xs (i + 1) (by omega),
    get?_eq_some_getD 0 ys j (by omega), get?_eq_some_getD 0 ys (j + 1) (by omega)]
  simp only []
  rw [hrowc, hrowd]
  simp only []
  rw [get?_eq_some_getD 0 (surface.getD j []) i (by omega),
    get?_eq_some_getD 0 (surface.getD j []) (i + 1) (by omega),
    get?_eq_some_getD 0 (surface.getD (j + 1) []) i (by omega),
    get?_eq_some_getD 0 (surface.getD (j + 1) []) (i + 1) (by omega)]
  simp only [FP.sub_fin_fin, FP.mul_fin_fin, FP.add_fin_fin,
    FP.div_fin_fin _ _ hxne, FP.div_fin_fin _ _ hyne]
  split_ifs <;> simp [FP.sub_fin_fin, FP.mul_fin_fin, FP.add_fin_fin]

/-- The aeb copy clamps before any cache step: below-range queries return the
first value and leave the cache untouched. -/
theorem aebGet_clampLeft (xs ys : List ℚ) (cache : List (FP × ℚ)) (q : FP)
    (hv : Valid1D xs ys) (h : FP.lt q (.fin (xs.getD 0 0)) = true) :
    AebOneD.get xs ys cache q = some (ys.getD 0 0, cache) := by
  obtain ⟨hlen, hleneq, _⟩ := hv
  unfold AebOneD.get
  rw [get?_eq_some_getD 0 xs 0 (by omega)]
  simp only [Option.bind_eq_bind, Option.some_bind, if_pos h]
  rw [get?_eq_some_getD 0 ys 0 (by omega)]
  rfl

/-- The aeb copy clamps before any cache step: above-range queries return the
last value and leave the cache untouched. -/
theorem aebGet_clampRight (xs ys : List ℚ) (cache : List (FP × ℚ)) (q : FP)
    (hv : Valid1D xs ys)
    (h0 : ¬ (FP.lt q (.fin (xs.getD 0 0)) = true))
    (h : FP.lt (.fin (xs.getD (xs.length - 1) 0)) q = true) :
    AebOneD.get xs ys cache q = some (ys.getD (ys.length - 1) 0, cache) := by
  obtain ⟨hlen, hleneq, _⟩ := hv
  unfold AebOneD.get
  rw [get?_eq_some_getD 0 xs 0 (by omega)]
  simp only [Option.bind_eq_bind, Option.some_bind, if_neg h0]
  rw [get?_eq_some_getD 0 xs (xs.length - 1) (by omega)]
  simp only [Option.some_bind, if_pos h]
  rw [get?_eq_some_getD 0 ys (ys.length - 1) (by omega)]
  rfl

end TwoDLemmas

section Claims

/-- Claim C1: for every valid 1D table and in-domain query `q` that binary search
does not find bit-exactly (insertion point `lub`), `get`'s interpolation
returns `y[prev] + alpha * (y[lub] - y[prev])` with `prev = lub - 1` and
`alpha = (q - x[prev]) / (x[lub] - x[prev])`; and on the table
`x = [1,2,7,9,13,20]`, `y = [8,4,6,10,3,2]`, `get(10.0)` is within `1e-4` of
`8.25` and `get(16.0)` is within `1e-4` of `2.5714`. -/
theorem C1_oned_interior_interpolation (xs ys : List ℚ) (q : ℚ) (lub : Nat)
    (hv : Valid1D xs ys)
    (h0 : xs.getD 0 0 ≤ q) (h1 : q ≤ xs.getD (xs.length - 1) 0)
    (hbs : rustBinarySearch xs q = Sum.inr lub) :
    (OneD.interpolate (.fin q) xs ys =
      some (ys.getD (lub - 1) 0 +
        ((q - xs.getD (lub - 1) 0) / (xs.getD lub 0 - xs.getD (lub - 1) 0)) *
        (ys.getD lub 0 - ys.getD (lub - 1) 0))) ∧
    (∃ r c, OneD.get [1, 2, 7, 9, 13, 20] [8, 4, 6, 10, 3, 2] [] (.fin 10) = some (r, c) ∧
      |r - 825/100| ≤ 1/10000) ∧
    (∃ r c, OneD.get [1, 2, 7, 9, 13, 20] [8, 4, 6, 10, 3, 2] [] (.fin 16) = some (r, c) ∧
      |r - 25714/10000| ≤ 1/10000) := by
  refine ⟨(interpolate_notFound xs ys q lub hv h0 h1 hbs).2.2, ?_, ?_⟩
  · refine ⟨33/4, [(.fin 10, 33/4)], ?_, by norm_num⟩
    norm_num [OneD.get, OneD.interpolate, OneD.interpSearch, rustBinarySearch, bsLoop,
      FP.lt, List.lookup]
  · refine ⟨18/7, [(.fin 16, 18/7)], ?_, by norm_num [abs_le]⟩
    norm_num [OneD.get, OneD.interpolate, OneD.interpSearch, rustBinarySearch, bsLoop,
      FP.lt, List.lookup]

/-- Witness for C1 at the table `x=[1,2,7,9,13,20]`, `y=[8,4,6,10,3,2]` and
query `10`: insertion point `lub = 4`, so the result is
`y[3] + ((10 - x[3]) / (x[4] - x[3])) * (y[4] - y[3])`. -/
theorem C1_oned_interior_interpolation_witness :
    OneD.interpolate (.fin 10) [1, 2, 7, 9, 13, 20] [8, 4, 6, 10, 3, 2] =
      some (10 + ((10 - 9) / (13 - 9)) * (3 - 10)) :=
  (C1_oned_interior_interpolation [1, 2, 7, 9, 13, 20] [8, 4, 6, 10, 3, 2] 10 4
    (by refine ⟨by norm_num, by norm_num, ?_⟩
        norm_num [pairwiseGapsQ, EPSILON])
    (by norm_num) (by norm_num)
    (by norm_num [rustBinarySearch, bsLoop])).1

open Classical in
/-- Claim C3: validation performs exactly the three spec checks in order, first
failure winning — minimum length, then NaN/Infinity rejection (breakpoints,
values and, for 2D, all surface cells), then the strict-increase (gap above
`EPSILON`) check — and the constructors return a table exactly when validation
passes, built unchanged from the inputs (no partial table on failure). -/
theorem C3_validation_order_first_failure_wins (xs ys : List FP)
    (surface : List (List FP)) :
    (is_object_constructible xs ys =
      if SpecMinLen xs ys then .error .MinLengthError
      else if SpecSeqInvalid xs ∨ SpecSeqInvalid ys then .error .ContainingNansOrInfinities
      else if SpecGapTooSmall xs then .error .IncreasingXOrderError
      else .ok true) ∧
    (is_object_constructible_dynamic xs ys surface =
      if SpecMinLen xs ys then
        .error "At least two values should be provided for x and y axes"
      else if SpecSeqInvalid xs ∨ SpecSeqInvalid ys ∨ (∃ row ∈ surface, SpecSeqInvalid row) then
        .error "Cannot create a Lookup Table containing NaNs or Infinities"
      else if SpecGapTooSmall xs ∨ SpecGapTooSmall ys then
        .error "X and Y values should be in strictly increasing order"
      else .ok true) ∧
    (∀ t, OneDLookUpTable.new xs ys = .ok t ↔
      (is_object_constructible xs ys = .ok true ∧ t = ⟨xs, ys⟩)) ∧
    (∀ e, OneDLookUpTable.new xs ys = .error e ↔ is_object_constructible xs ys = .error e) ∧
    (∀ t, OneDLookUpTableRef.new xs ys = .ok t ↔
      (is_object_constructible xs ys = .ok true ∧ t = ⟨xs, ys⟩)) := by
  have hnanx := hasNanOrInf_iff xs
  have hnany := hasNanOrInf_iff ys
  have hsurf : (surface.any fun row => hasNanOrInf row) = true ↔
      ∃ row ∈ surface, SpecSeqInvalid row := by
    simp only [List.any_eq_true]
    constructor
    · rintro ⟨row, hrow, hb⟩
      exact ⟨row, hrow, (hasNanOrInf_iff row).mp hb⟩
    · rintro ⟨row, hrow, hb⟩
      exact ⟨row, hrow, (hasNanOrInf_iff row).mpr hb⟩
  refine ⟨?_, ?_, ?_, ?_, ?_⟩
  · unfold is_object_constructible
    by_cases hm : SpecMinLen xs ys
    · rw [if_pos hm, if_pos (by exact hm)]
    · rw [if_neg hm, if_neg (by exact hm)]
      by_cases hn : SpecSeqInvalid xs ∨ SpecSeqInvalid ys
      · have hb : (hasNanOrInf xs || hasNanOrInf ys) = true := by
          rcases hn with h | h
          · simp [hnanx.mpr h]
          · simp [hnany.mpr h]
        rw [if_pos hn, if_pos (by simp [hb])]
      · have hbx : hasNanOrInf xs = false := by
          cases hx : hasNanOrInf xs
          · rfl
          · exact absurd (Or.inl (hnanx.mp hx)) hn
        have hby : hasNanOrInf ys = false := by
          cases hy : hasNanOrInf ys
          · rfl
          · exact absurd (Or.inr (hnany.mp hy)) hn
        rw [if_neg hn, if_neg (by simp [hbx, hby])]
        have hgiff := windowsGapOk_iff xs hbx
        by_cases hg : SpecGapTooSmall xs
        · have hw : windowsGapOk xs = false := by
            cases hw : windowsGapOk xs
            · rfl
            · exact absurd hg (hgiff.mp hw)
          rw [if_pos hg, if_pos (by simp [hw])]
        · have hw : windowsGapOk xs = true := hgiff.mpr hg
          rw [if_neg hg, if_neg (by simp [hw])]
  · unfold is_object_constructible_dynamic
    by_cases hm : SpecMinLen xs ys
    · rw [if_pos hm, if_pos (by exact hm)]
    · rw [if_neg hm, if_neg (by exact hm)]
      by_cases hn : SpecSeqInvalid xs ∨ SpecSeqInvalid ys ∨ (∃ row ∈ surface, SpecSeqInvalid row)
      · have hb : (hasNanOrInf xs || hasNanOrInf ys ||
            surface.any fun row => hasNanOrInf row) = true := by
          rcases hn with h | h | h
          · simp [hnanx.mpr h]
          · simp [hnany.mpr h]
          · simp [hsurf.mpr h]
        rw [if_pos hn, if_pos (by simp [hb])]
      · have hbx : hasNanOrInf xs = false := by
          cases hx : hasNanOrInf xs
          · rfl
          · exact absurd (Or.inl (hnanx.mp hx)) hn
        have hby : hasNanOrInf ys = false := by
          cases hy : hasNanOrInf ys
          · rfl
          · exact absurd (Or.inr (Or.inl (hnany.mp hy))) hn
        have hbs : (surface.any fun row => hasNanOrInf row) = false := by
          cases hsa : (surface.any fun row => hasNanOrInf row)
          · rfl
          · exact absurd (Or.inr (Or.inr (hsurf.mp hsa))) hn
        rw [if_neg hn, if_neg (by simp [hbx, hby, hbs])]
        have hgx := windowsGapOk_iff xs hbx
        have hgy := windowsGapOk_iff ys hby
        by_cases hg : SpecGapTooSmall xs ∨ SpecGapTooSmall ys
        · have hw : ¬ windowsGapOk xs = true ∨ ¬ windowsGapOk ys = true := by
            rcases hg with h | h
            · exact Or.inl (fun hc => (hgx.mp hc) h)
            · exact Or.inr (fun hc => (hgy.mp hc) h)
          rw [if_pos hg, if_pos hw]
        · have hg1 : ¬ SpecGapTooSmall xs := fun h => hg (Or.inl h)
          have hg2 : ¬ SpecGapTooSmall ys := fun h => hg (Or.inr h)
          have hwx : windowsGapOk xs = true := hgx.mpr hg1
          have hwy : windowsGapOk ys = true := hgy.mpr hg2
          rw [if_neg hg, if_neg (by simp [hwx, hwy])]
  · intro t
    unfold OneDLookUpTable.new
    cases h : is_object_constructible xs ys with
    | ok b =>
      have hb : b = true := by
        unfold is_object_constructible at h
        split_ifs at h <;> simp_all
      subst hb
      simp [Except.map]
      exact eq_comm
    | error e => simp [Except.map]
  · intro e
    unfold OneDLookUpTable.new
    cases h : is_object_constructible xs ys with
    | ok b => simp [Except.map]
    | error e' => simp [Except.map]
  · intro t
    unfold OneDLookUpTableRef.new
    cases h : is_object_constructible xs ys with
    | ok b =>
      have hb : b = true := by
        unfold is_object_constructible at h
        split_ifs at h <;> simp_all
      subst hb
      simp [Except.map]
      exact eq_comm
    | error e => simp [Except.map]

/-- Claim C5: on a valid 1D table (with a sound cache), querying breakpoint
`x[i]` returns exactly `y[i]` — the binary search hits `Ok(i)` and no
interpolation is applied — and the result is stored in the cache under the
query's key. -/
theorem C5_exact_breakpoint_hit (xs ys : List ℚ) (cache : List (FP × ℚ)) (i : Nat)
    (hv : Valid1D xs ys) (hi : i < xs.length) (hc : CacheConsistent xs ys cache) :
    ∃ cache', OneD.get xs ys cache (.fin (xs.getD i 0)) = some (ys.getD i 0, cache') ∧
      List.lookup (.fin (xs.getD i 0)) cache' = some (ys.getD i 0) := by
  obtain ⟨cache', h1, h2, _⟩ :=
    get_spec xs ys cache (.fin (xs.getD i 0)) (ys.getD i 0) hc
      (interpolate_exact xs ys i hv hi)
  exact ⟨cache', h1, h2⟩

/-- Witness for C5: table `x=[1,2,7,9,13,20]`, `y=[8,4,6,10,3,2]`, breakpoint
index 2 (`x[2]=7`), empty cache. -/
theorem C5_exact_breakpoint_hit_witness :
    ∃ cache', OneD.get [1, 2, 7, 9, 13, 20] [8, 4, 6, 10, 3, 2] [] (.fin 7) =
        some (6, cache') ∧
      List.lookup (.fin 7) cache' = some 6 :=
  C5_exact_breakpoint_hit [1, 2, 7, 9, 13, 20] [8, 4, 6, 10, 3, 2] [] 2
    (by refine ⟨by norm_num, by norm_num, ?_⟩
        norm_num [pairwiseGapsQ, EPSILON])
    (by norm_num)
    (cacheConsistent_nil _ _)

/-- Claim C6: on a valid 1D table (with a sound cache), a query below `x[0]`
yields `y[0]` and a query above `x[last]` yields `y[last]`, both from
`interpolate` and through `get` — clamping, never an error. -/
theorem C6_out_of_domain_clamp (xs ys : List ℚ) (q : ℚ) (cache : List (FP × ℚ))
    (hv : Valid1D xs ys) (hc : CacheConsistent xs ys cache) :
    (q < xs.getD 0 0 →
      OneD.interpolate (.fin q) xs ys = some (ys.getD 0 0) ∧
      ∃ cache', OneD.get xs ys cache (.fin q) = some (ys.getD 0 0, cache')) ∧
    (xs.getD (xs.length - 1) 0 < q →
      OneD.interpolate (.fin q) xs ys = some (ys.getD (ys.length - 1) 0) ∧
      ∃ cache', OneD.get xs ys cache (.fin q) = some (ys.getD (ys.length - 1) 0, cache')) := by
  constructor
  · intro h
    have hi : OneD.interpolate (.fin q) xs ys = some (ys.getD 0 0) :=
      interpolate_clampLeft xs ys (.fin q) hv (by simpa using h)
    obtain ⟨cache', h1, _, _⟩ := get_spec xs ys cache (.fin q) (ys.getD 0 0) hc hi
    exact ⟨hi, cache', h1⟩
  · intro h
    have hs := valid1D_strictMono xs ys hv
    obtain ⟨hlen, hleneq, hgaps⟩ := hv
    have hx0l : xs.getD 0 0 ≤ xs.getD (xs.length - 1) 0 :=
      le_of_lt (hs 0 (xs.length - 1) (by omega) (by omega))
    have h0 : ¬ (FP.lt (.fin q) (.fin (xs.getD 0 0)) = true) := by
      simp only [FP.lt_fin_fin, decide_eq_true_eq, not_lt]
      linarith
    have hi : OneD.interpolate (.fin q) xs ys = some (ys.getD (ys.length - 1) 0) :=
      interpolate_clampRight xs ys (.fin q) ⟨hlen, hleneq, hgaps⟩ h0 (by simpa using h)
    obtain ⟨cache', h1, _, _⟩ := get_spec xs ys cache (.fin q) _ hc hi
    exact ⟨hi, cache', h1⟩

/-- Witness for C6 at the table `x=[1,2]`, `y=[8,4]`: the query `0` is clamped
to `y[0] = 8` and the query `5` to `y[1] = 4`. -/
theorem C6_out_of_domain_clamp_witness :
    (OneD.interpolate (.fin 0) [1, 2] [8, 4] = some 8 ∧
      ∃ cache', OneD.get [1, 2] [8, 4] [] (.fin 0) = some (8, cache')) ∧
    (OneD.interpolate (.fin 5) [1, 2] [8, 4] = some 4 ∧
      ∃ cache', OneD.get [1, 2] [8, 4] [] (.fin 5) = some (4, cache')) :=
  ⟨(C6_out_of_domain_clamp [1, 2] [8, 4] 0 []
      (by refine ⟨by norm_num, by norm_num, ?_⟩
          norm_num [pairwiseGapsQ, EPSILON])
      (cacheConsistent_nil _ _)).1 (by norm_num),
   (C6_out_of_domain_clamp [1, 2] [8, 4] 5 []
      (by refine ⟨by norm_num, by norm_num, ?_⟩
          norm_num [pairwiseGapsQ, EPSILON])
      (cacheConsistent_nil _ _)).2 (by norm_num)⟩

/-- Claim C9: on a valid 1D table whose value sequence is strictly increasing, a
query strictly between adjacent breakpoints interpolates to a value strictly
between the corresponding stored values. -/
theorem C9_monotone_interpolation (xs ys : List ℚ) (q : ℚ) (i : Nat)
    (hv : Valid1D xs ys)
    (hys : ∀ j, j + 1 < ys.length → ys.getD j 0 < ys.getD (j + 1) 0)
    (hi : i + 1 < xs.length) (h1 : xs.getD i 0 < q) (h2 : q < xs.getD (i + 1) 0) :
    ∃ r, OneD.interpolate (.fin q) xs ys = some r ∧
      ys.getD i 0 < r ∧ r < ys.getD (i + 1) 0 := by
  have hs := valid1D_strictMono xs ys hv
  have hbs := rustBinarySearch_between xs q hs i hi h1 h2
  obtain ⟨hlen, hleneq, hgaps⟩ := hv
  have h0 : xs.getD 0 0 ≤ q := by
    cases Nat.eq_zero_or_pos i with
    | inl h =>
      rw [h] at h1
      exact le_of_lt h1
    | inr h => exact le_of_lt (lt_trans (hs 0 i h (by omega)) h1)
  have hlast : q ≤ xs.getD (xs.length - 1) 0 := by
    rcases Nat.lt_or_ge (i + 1) (xs.length - 1) with h | h
    · exact le_of_lt (lt_trans h2 (hs (i + 1) (xs.length - 1) h (by omega)))
    · have : i + 1 = xs.length - 1 := by omega
      rw [← this]
      exact le_of_lt h2
  obtain ⟨_, _, heq⟩ :=
    interpolate_notFound xs ys q (i + 1) ⟨hlen, hleneq, hgaps⟩ h0 hlast hbs
  simp only [Nat.add_sub_cancel] at heq
  refine ⟨_, heq, ?_, ?_⟩
  · have hxgap : (0 : ℚ) < xs.getD (i + 1) 0 - xs.getD i 0 := by linarith
    have hygap : (0 : ℚ) < ys.getD (i + 1) 0 - ys.getD i 0 := by
      have := hys i (by omega)
      linarith
    have halpha : (0 : ℚ) < (q - xs.getD i 0) / (xs.getD (i + 1) 0 - xs.getD i 0) :=
      div_pos (by linarith) hxgap
    nlinarith [mul_pos halpha hygap]
  · have hxgap : (0 : ℚ) < xs.getD (i + 1) 0 - xs.getD i 0 := by linarith
    have hygap : (0 : ℚ) < ys.getD (i + 1) 0 - ys.getD i 0 := by
      have := hys i (by omega)
      linarith
    have halpha : (q - xs.getD i 0) / (xs.getD (i + 1) 0 - xs.getD i 0) < 1 :=
      (div_lt_one hxgap).mpr (by linarith)
    have halpha0 : (0 : ℚ) < (q - xs.getD i 0) / (xs.getD (i + 1) 0 - xs.getD i 0) :=
      div_pos (by linarith) hxgap
    nlinarith [mul_lt_mul_of_pos_right halpha hygap]

/-- Witness for C9: table `x=[1,2]`, `y=[8,9]` (strictly increasing values),
query `3/2` strictly between `x[0]` and `x[1]`. -/
theorem C9_monotone_interpolation_witness :
    ∃ r, OneD.interpolate (.fin (3/2)) [1, 2] [8, 9] = some r ∧
      (8 : ℚ) < r ∧ r < 9 := by
  obtain ⟨r, h1, h2, h3⟩ :=
    C9_monotone_interpolation [1, 2] [8, 9] (3/2) 0
      (by refine ⟨by norm_num, by norm_num, ?_⟩
          norm_num [pairwiseGapsQ, EPSILON])
      (by intro j hj
          simp only [List.length_cons, List.length_nil] at hj
          have hj0 : j = 0 := by omega
          subst hj0
          norm_num)
      (by norm_num) (by norm_num) (by norm_num)
  exact ⟨r, h1, by simpa using h2, by simpa using h3⟩

/-- Claim C7: `get` is deterministic and cache-coherent: after a successful call
the result sits in the cache under the query's exact key, an identical query
is served from the cache with the same result and an unchanged cache, and no
other key's entry is disturbed — for the 1D and the 2D engine alike. -/
theorem C7_cache_determinism (xs ys : List ℚ) (cache : List (FP × ℚ)) (q : FP)
    (y : ℚ) (cache' : List (FP × ℚ))
    (h : OneD.get xs ys cache q = some (y, cache')) :
    List.lookup q cache' = some y ∧
    OneD.get xs ys cache' q = some (y, cache') ∧
    (∀ k, k ≠ q → List.lookup k cache' = List.lookup k cache) ∧
    (∀ (xs2 ys2 : List ℚ) (surface : List (List ℚ))
      (cache2 : List ((FP × FP) × FP)) (qx qy z : FP)
      (cache2' : List ((FP × FP) × FP)),
      TwoD.get xs2 ys2 surface cache2 qx qy = some (z, cache2') →
      List.lookup (qx, qy) cache2' = some z ∧
      TwoD.get xs2 ys2 surface cache2' qx qy = some (z, cache2') ∧
      (∀ k, k ≠ (qx, qy) → List.lookup k cache2' = List.lookup k cache2)) := by
  have h13 : List.lookup q cache' = some y ∧
      OneD.get xs ys cache' q = some (y, cache') ∧
      (∀ k, k ≠ q → List.lookup k cache' = List.lookup k cache) := by
    unfold OneD.get at h
    cases hl : List.lookup q cache with
    | some v =>
      rw [hl] at h
      simp only [Option.some.injEq, Prod.mk.injEq] at h
      obtain ⟨hy, hcache⟩ := h
      subst hy
      subst hcache
      refine ⟨hl, ?_, fun k _ => rfl⟩
      unfold OneD.get
      rw [hl]
    | none =>
      rw [hl] at h
      cases hi : OneD.interpolate q xs ys with
      | none =>
        rw [hi] at h
        simp at h
      | some yy =>
        rw [hi] at h
        simp only [Option.some.injEq, Prod.mk.injEq] at h
        obtain ⟨hy, hcache⟩ := h
        subst hy
        subst hcache
        refine ⟨?_, ?_, ?_⟩
        · simp [List.lookup]
        · unfold OneD.get
          simp [List.lookup]
        · intro k hk
          simp [List.lookup, beq_false_of_ne hk]
  refine ⟨h13.1, h13.2.1, h13.2.2, ?_⟩
  intro xs2 ys2 surface cache2 qx qy z cache2' h2
  unfold TwoD.get at h2
  cases hl : List.lookup (qx, qy) cache2 with
  | some v =>
    rw [hl] at h2
    simp only [Option.some.injEq, Prod.mk.injEq] at h2
    obtain ⟨hy, hcache⟩ := h2
    subst hy
    subst hcache
    refine ⟨hl, ?_, fun k _ => rfl⟩
    unfold TwoD.get
    rw [hl]
  | none =>
    rw [hl] at h2
    cases hi : TwoD.interpolate qx qy xs2 ys2 surface with
    | none =>
      rw [hi] at h2
      simp at h2
    | some zz =>
      rw [hi] at h2
      simp only [Option.some.injEq, Prod.mk.injEq] at h2
      obtain ⟨hy, hcache⟩ := h2
      subst hy
      subst hcache
      refine ⟨?_, ?_, ?_⟩
      · simp [List.lookup]
      · unfold TwoD.get
        simp [List.lookup]
      · intro k hk
        simp [List.lookup, beq_false_of_ne hk]

/-- Witness for C7: a first call on the table `x=[1,2]`, `y=[8,4]` with query
`3/2` and empty cache; the conclusion is instantiated from it. -/
theorem C7_cache_determinism_witness :
    List.lookup (FP.fin (3/2)) [(FP.fin (3/2), (6 : ℚ))] = some 6 ∧
    OneD.get [1, 2] [8, 4] [(FP.fin (3/2), 6)] (.fin (3/2)) =
      some (6, [(FP.fin (3/2), 6)]) := by
  have happ := C7_cache_determinism [1, 2] [8, 4] [] (.fin (3/2)) 6 [(FP.fin (3/2), 6)]
    (by norm_num [OneD.get, OneD.interpolate, OneD.interpSearch, rustBinarySearch,
      bsLoop, FP.lt, List.lookup])
  exact ⟨happ.1, happ.2.1⟩

/-- Claim C4, counterexample: on the valid table `x=[1,2]`, `y=[8,4]`, the query
NaN reaches `binary_search_by(|val| val.partial_cmp(index).unwrap())`, where
`partial_cmp` against NaN yields `None` and the `unwrap` panics — modelled by
`none` — so query-time evaluation is not total on all `f64` inputs. -/
theorem C4_counterexample_nan_query_panics :
    Valid1D [1, 2] [8, 4] ∧ OneD.get [1, 2] [8, 4] [] FP.nan = none := by
  constructor
  · refine ⟨by norm_num, by norm_num, ?_⟩
    norm_num [pairwiseGapsQ, EPSILON]
  · norm_num [OneD.get, OneD.interpolate, OneD.interpSearch, rustBinarySearch,
      bsLoop, FP.lt, List.lookup]

/-- Claim C4, amended: query-time evaluation never fails for any non-NaN query
(±infinity included) on a valid 1D or 2D table, but a NaN query panics inside
the `partial_cmp(..).unwrap()` of the binary search (1D) or of `get_indices`
(2D). -/
theorem C4_amended_total_except_nan :
    (∀ (xs ys : List ℚ) (q : FP), Valid1D xs ys → q ≠ FP.nan →
      (OneD.interpolate q xs ys).isSome = true) ∧
    (∀ (xs ys : List ℚ), Valid1D xs ys →
      OneD.interpolate FP.nan xs ys = none) ∧
    (∀ (xs ys : List ℚ) (surface : List (List ℚ)) (x y : FP),
      Valid2D xs ys surface → x ≠ FP.nan → y ≠ FP.nan →
      (TwoD.interpolate x y xs ys surface).isSome = true) ∧
    (∀ (xs ys : List ℚ) (surface : List (List ℚ)) (x y : FP),
      Valid2D xs ys surface → (x = FP.nan ∨ y = FP.nan) →
      TwoD.interpolate x y xs ys surface = none) :=
  ⟨fun xs ys q hv hq => interpolate_total xs ys q hv hq,
   fun xs ys hv => interpolate_nan xs ys hv,
   fun xs ys surface x y hv hx hy => interpolate2_total xs ys surface x y hv hx hy,
   fun xs ys surface x y hv h => interpolate2_nan xs ys surface x y hv h⟩

/-- Witness for the amended C4: the 1D table `x=[1,2]`, `y=[8,4]` with query
`+∞` evaluates without failure. -/
theorem C4_amended_total_except_nan_witness :
    (OneD.interpolate FP.inf [1, 2] [8, 4]).isSome = true :=
  C4_amended_total_except_nan.1 [1, 2] [8, 4] FP.inf
    (by refine ⟨by norm_num, by norm_num, ?_⟩
        norm_num [pairwiseGapsQ, EPSILON])
    (by simp)

/-- Claim C8, counterexample: in the main crate (`src/src/oned_lut/mod.rs`), an
out-of-domain query (`0 < x[0] = 1` on the valid table `x=[1,2]`, `y=[8,4]`)
does go through the cache: `get` computes the key, misses, and inserts the
clamped boundary value, so the cache does not stay unchanged. -/
theorem C8_counterexample_clamp_goes_through_cache :
    Valid1D [1, 2] [8, 4] ∧ (0 : ℚ) < 1 ∧
    OneD.get [1, 2] [8, 4] [] (.fin 0) = some (8, [(FP.fin 0, 8)]) ∧
    ([(FP.fin 0, 8)] : List (FP × ℚ)) ≠ [] := by
  refine ⟨?_, by norm_num, ?_, by simp⟩
  · refine ⟨by norm_num, by norm_num, ?_⟩
    norm_num [pairwiseGapsQ, EPSILON]
  · norm_num [OneD.get, OneD.interpolate, OneD.interpSearch, rustBinarySearch,
      bsLoop, FP.lt, List.lookup]

/-- Claim C8, amended: the aeb copy (`aeb_decision_rust/.../oned_lut.rs`) clamps
before any cache step — out-of-domain queries return the boundary value with
the cache untouched — while in the main crate the clamp happens inside
`interpolate` after the cache lookup, so an uncached out-of-domain query
returns the boundary value and inserts it under the query's key. -/
theorem C8_amended_clamp_vs_cache_order :
    (∀ (xs ys : List ℚ) (cache : List (FP × ℚ)) (q : FP), Valid1D xs ys →
      FP.lt q (.fin (xs.getD 0 0)) = true →
      AebOneD.get xs ys cache q = some (ys.getD 0 0, cache)) ∧
    (∀ (xs ys : List ℚ) (cache : List (FP × ℚ)) (q : FP), Valid1D xs ys →
      ¬ (FP.lt q (.fin (xs.getD 0 0)) = true) →
      FP.lt (.fin (xs.getD (xs.length - 1) 0)) q = true →
      AebOneD.get xs ys cache q = some (ys.getD (ys.length - 1) 0, cache)) ∧
    (∀ (xs ys : List ℚ) (cache : List (FP × ℚ)) (q : FP), Valid1D xs ys →
      List.lookup q cache = none →
      FP.lt q (.fin (xs.getD 0 0)) = true →
      OneD.get xs ys cache q = some (ys.getD 0 0, (q, ys.getD 0 0) :: cache)) ∧
    (∀ (xs ys : List ℚ) (cache : List (FP × ℚ)) (q : FP), Valid1D xs ys →
      List.lookup q cache = none →
      ¬ (FP.lt q (.fin (xs.getD 0 0)) = true) →
      FP.lt (.fin (xs.getD (xs.length - 1) 0)) q = true →
      OneD.get xs ys cache q =
        some (ys.getD (ys.length - 1) 0, (q, ys.getD (ys.length - 1) 0) :: cache)) := by
  refine ⟨fun xs ys cache q hv h => aebGet_clampLeft xs ys cache q hv h,
    fun xs ys cache q hv h0 h => aebGet_clampRight xs ys cache q hv h0 h, ?_, ?_⟩
  · intro xs ys cache q hv hl h
    unfold OneD.get
    rw [hl, interpolate_clampLeft xs ys q hv h]
  · intro xs ys cache q hv hl h0 h
    unfold OneD.get
    rw [hl, interpolate_clampRight xs ys q hv h0 h]

/-- Witness for the amended C8: table `x=[1,2]`, `y=[8,4]`, query `0`, empty
cache — the aeb copy leaves the cache empty, the main crate inserts the
clamped result. -/
theorem C8_amended_clamp_vs_cache_order_witness :
    AebOneD.get [1, 2] [8, 4] [] (.fin 0) = some (8, []) ∧
    OneD.get [1, 2] [8, 4] [] (.fin 0) = some (8, [(FP.fin 0, 8)]) := by
  have hv : Valid1D [1, 2] [8, 4] := by
    refine ⟨by norm_num, by norm_num, ?_⟩
    norm_num [pairwiseGapsQ, EPSILON]
  constructor
  · exact C8_amended_clamp_vs_cache_order.1 [1, 2] [8, 4] [] (.fin 0) hv
      (by norm_num [FP.lt])
  · exact C8_amended_clamp_vs_cache_order.2.2.1 [1, 2] [8, 4] [] (.fin 0) hv
      (by simp [List.lookup]) (by norm_num [FP.lt])

/-- Claim C10: 1D validation never compares the lengths of the breakpoint and
value slices: `OneDLookUpTableRef::new([1,2,3], [8,4])` succeeds although the
slices have different lengths, and the subsequent in-domain query `5/2`
(between `x[1]=2` and `x[2]=3`) indexes `ys[2]` on the 2-element value slice,
an out-of-bounds panic (`none` in the model). -/
theorem C10_length_mismatch_constructible :
    OneDLookUpTableRef.new [FP.fin 1, FP.fin 2, FP.fin 3] [FP.fin 8, FP.fin 4] =
      .ok ⟨[FP.fin 1, FP.fin 2, FP.fin 3], [FP.fin 8, FP.fin 4]⟩ ∧
    ([FP.fin 1, FP.fin 2, FP.fin 3] : List FP).length ≠
      ([FP.fin 8, FP.fin 4] : List FP).length ∧
    2 ≤ ([FP.fin 8, FP.fin 4] : List FP).length ∧
    OneD.interpolate (.fin (5/2)) [1, 2, 3] [8, 4] = none := by
  refine ⟨?_, by norm_num, by norm_num, ?_⟩
  · norm_num [OneDLookUpTableRef.new, is_object_constructible, hasNanOrInf,
      windowsGapOk, gapGtFP, FP.isNan, FP.isInfinite, FP.lt, FP.sub, EPSILON,
      Except.map]
  · norm_num [OneD.interpolate, OneD.interpSearch, rustBinarySearch, bsLoop, FP.lt]

/-- Claim C2: per-axis index resolution (clamp below to `(0,0)`, above to
`(last,last)`, exact hit to `(i,i)`, otherwise `(ins-1, ins)`), corners read
as `surface[y][x]` (row index y, column index x), result computed by the
degenerate-corner value-equality policy, and on `x=[14,15]`, `y=[20,21]`,
`surface=[[91,210],[162,95]]` the query `(14.5, 20.2)` gives `131.7` within
`1e-5`. -/
theorem C2_twod_bilinear (xs ys : List ℚ) (surface : List (List ℚ))
    (qx qy : ℚ) (i j : Nat)
    (hv : Valid2D xs ys surface)
    (hi : i + 1 < xs.length) (hj : j + 1 < ys.length)
    (hx1 : xs.getD i 0 < qx) (hx2 : qx < xs.getD (i + 1) 0)
    (hy1 : ys.getD j 0 < qy) (hy2 : qy < ys.getD (j + 1) 0)
    (x1 x2 y1 y2 f11 f12 f21 f22 ax ay : ℚ)
    (hex1 : x1 = xs.getD i 0) (hex2 : x2 = xs.getD (i + 1) 0)
    (hey1 : y1 = ys.getD j 0) (hey2 : y2 = ys.getD (j + 1) 0)
    (hef11 : f11 = (surface.getD j []).getD i 0)
    (hef12 : f12 = (surface.getD j []).getD (i + 1) 0)
    (hef21 : f21 = (surface.getD (j + 1) []).getD i 0)
    (hef22 : f22 = (surface.getD (j + 1) []).getD (i + 1) 0)
    (heax : ax = (qx - x1) / (x2 - x1)) (heay : ay = (qy - y1) / (y2 - y1)) :
    (TwoD.get_indices (.fin qx) xs = some (i, i + 1)) ∧
    (TwoD.get_indices (.fin qy) ys = some (j, j + 1)) ∧
    (TwoD.interpolate (.fin qx) (.fin qy) xs ys surface =
      some (.fin (
        if f11 = f22 then f11
        else if f11 = f21 then f11 + ax * (f12 - f11)
        else if f11 = f12 then f11 + ay * (f21 - f11)
        else (f11 + ax * (f21 - f11)) +
          ((f12 + ax * (f22 - f12)) - (f11 + ax * (f21 - f11))) * ay))) ∧
    (∀ (vs : List ℚ) (v : FP), 2 ≤ vs.length → pairwiseGapsQ vs = true →
      (FP.lt v (.fin (vs.getD 0 0)) = true → TwoD.get_indices v vs = some (0, 0)) ∧
      (FP.lt (.fin (vs.getD (vs.length - 1) 0)) v = true →
        TwoD.get_indices v vs = some (vs.length - 1, vs.length - 1)) ∧
      (∀ k, k < vs.length → TwoD.get_indices (.fin (vs.getD k 0)) vs = some (k, k))) ∧
    (∃ c, TwoD.get [14, 15] [20, 21] [[91, 210], [162, 95]] [] (.fin (29/2)) (.fin (101/5)) =
      some (.fin (1317/10), c) ∧ |(1317/10 : ℚ) - 1317/10| ≤ 1/100000) := by
  refine ⟨?_, ?_, ?_, ?_, ?_⟩
  · exact get_indices_between xs qx i hv.1 (strictMono_of_gaps xs hv.2.2.1) hi hx1 hx2
  · exact get_indices_between ys qy j hv.2.1 (strictMono_of_gaps ys hv.2.2.2.1) hj hy1 hy2
  · exact interpolate2_interior xs ys surface qx qy i j hv hi hj hx1 hx2 hy1 hy2
      x1 x2 y1 y2 f11 f12 f21 f22 ax ay hex1 hex2 hey1 hey2
      hef11 hef12 hef21 hef22 heax heay
  · intro vs v hlen hgaps
    refine ⟨fun h => get_indices_below vs v hlen h,
      fun h => get_indices_above vs v hlen (strictMono_of_gaps vs hgaps) h,
      fun k hk => get_indices_exact vs k hlen (strictMono_of_gaps vs hgaps) hk⟩
  · refine ⟨[((FP.fin (29/2), FP.fin (101/5)), FP.fin (1317/10))], ?_, by norm_num⟩
    norm_num [TwoD.get, TwoD.interpolate, TwoD.get_indices, rustBinarySearch, bsLoop,
      FP.lt, FP.add, FP.sub, FP.mul, FP.div, List.lookup]

/-- Witness for C2 at the spec's 2D test: `x=[14,15]`, `y=[20,21]`,
`surface=[[91,210],[162,95]]`, query `(14.5, 20.2)` resolved to the index
pairs `(0,1)` on both axes. -/
theorem C2_twod_bilinear_witness :
    TwoD.get_indices (.fin (29/2)) [14, 15] = some (0, 1) ∧
    TwoD.get_indices (.fin (101/5)) [20, 21] = some (0, 1) :=
  have happ := C2_twod_bilinear [14, 15] [20, 21] [[91, 210], [162, 95]]
    (29/2) (101/5) 0 0
    (by refine ⟨by norm_num, by norm_num, ?_, ?_, by norm_num, ?_⟩
        · norm_num [pairwiseGapsQ, EPSILON]
        · norm_num [pairwiseGapsQ, EPSILON]
        · intro row hrow
          simp only [List.mem_cons, List.not_mem_nil, or_false] at hrow
          rcases hrow with rfl | rfl <;> rfl)
    (by norm_num) (by norm_num)
    (by norm_num) (by norm_num) (by norm_num) (by norm_num)
    14 15 20 21 91 210 162 95 (1/2) (1/5)
    (by norm_num) (by norm_num) (by norm_num) (by norm_num)
    (by norm_num [List.getD]) (by norm_num [List.getD])
    (by norm_num [List.getD]) (by norm_num [List.getD])
    (by norm_num) (by norm_num)
  ⟨happ.1, happ.2.1⟩

end Claims
